import Mathlib

/-!
Verification of the game engine of `olom.py` (a one-line falling-block
puzzle game).  The Python source is shallowly embedded: the game state is a
structure of lists and naturals, the stateful functions become pure state
transformers, and the two sources of external nondeterminism
(`random.randrange` results and the piece generator closure) are passed in
as explicit arguments.  While loops are embedded with an explicit fuel
argument whose sufficiency is proved separately.
-/

/-! ## Constants (olom.py lines 11-22) -/

def FIELD_WIDTH : Nat := 10
def PIECE_WIDTH : Nat := 3
def PIECE_BLOCKS : Nat := 4
def MIN_RECT_WIDTH : Nat := 4
def MESSAGE_SHOW_DURATION : Nat := 15

/-- curses key code for the left arrow. -/
def KEY_LEFT : Int := 260
/-- curses key code for the right arrow. -/
def KEY_RIGHT : Int := 261
/-- curses key code for the down arrow. -/
def KEY_DOWN : Int := 258

/-! ## Data model (olom.py lines 32-67) -/

/-- `GameState` dataclass (olom.py lines 32-53), with the dataclass defaults. -/
structure GameState where
  game_field : List Nat := List.replicate FIELD_WIDTH 0
  piece_queue : List (Option (List Nat)) := []
  piece_col : Nat := 0
  piece_pos : Nat := 9
  score : Nat := 0
  piece_drop_pos : Nat := 9
  pieces_dropped : Nat := 0
deriving DecidableEq

/-- `Message` dataclass (olom.py lines 56-67). -/
structure Message where
  text : String := ""
  time_left : Nat := MESSAGE_SHOW_DURATION
deriving DecidableEq

/-! ## Piece generation (olom.py lines 70-100)

`gen_piece_random` draws `blocks` uniformly random column indices; the
sequence of `random.randrange(width)` results is passed in explicitly as
`choices`. -/

/-- The `cells` array after the increment loop of `gen_piece_random`
(olom.py lines 89-92). -/
def build_cells (width : Nat) (choices : List Nat) : List Nat :=
  choices.foldl (fun cells i => cells.set i (cells.getD i 0 + 1))
    (List.replicate width 0)

/-- `gen_piece_random` (olom.py lines 82-98): build the cells, then strip
leading and trailing zeros (the two `while` loops; they are exactly
`dropWhile` on each end whenever some cell is nonzero, which holds as soon
as `choices` is nonempty and in range). -/
def gen_piece_random (width : Nat) (choices : List Nat) : List Nat :=
  let cells := build_cells width choices
  let cells := cells.dropWhile (fun v => v == 0)
  (cells.reverse.dropWhile (fun v => v == 0)).reverse

/-! ## Piece-pattern parsing (olom.py lines 133-152)

Strings are embedded as `List Char`.  The regex `^[0-9,]+$` is the
character-class check below; the failing `assert`s are modelled by
returning `none`. -/

/-- The characters matched by the `[0-9]` part of the pattern regex. -/
def DIGIT_CHARS : List Char := ['0', '1', '2', '3', '4', '5', '6', '7', '8', '9']

/-- `int` applied to one digit character. -/
def digit_val (c : Char) : Nat := c.toNat - '0'.toNat

/-- The digit character for a value `0..9` (used to state the round-trip). -/
def digit_char (n : Nat) : Char := Char.ofNat ('0'.toNat + n)

/-- Python's `str.split(",")` on a character list: always returns at least
one (possibly empty) group, commas separate groups. -/
def split_on_comma : List Char → List (List Char)
  | [] => [[]]
  | c :: cs =>
    if c = ',' then [] :: split_on_comma cs
    else
      match split_on_comma cs with
      | [] => [[c]]
      | g :: gs => (c :: g) :: gs

/-- Python's `",".join` on character-list groups. -/
def join_comma : List (List Char) → List Char
  | [] => []
  | [g] => g
  | g :: gs => g ++ ',' :: join_comma gs

/-- `scan_piece_pattern` (olom.py lines 133-152).  `none` models a failing
`assert` (invalid character, empty string, or a group summing to zero). -/
def scan_piece_pattern (pattern : List Char) : Option (List (List Nat)) :=
  if pattern ≠ [] ∧ ∀ c ∈ pattern, c ∈ DIGIT_CHARS ∨ c = ',' then
    let pieces := (split_on_comma pattern).map (fun s => s.map digit_val)
    if ∀ p ∈ pieces, 0 < p.sum then some pieces else none
  else none

/-! ## Rectangle scan (olom.py lines 155-174) -/

/-- The inner `while` loop of `find_rect` (olom.py lines 170-171):
starting at `d`, advance while in bounds and the field value equals `v`.
`fuel` bounds the iteration count; `game_field.length - d` is exact. -/
def run_end_aux (game_field : List Nat) (v : Nat) : Nat → Nat → Nat
  | d, 0 => d
  | d, fuel + 1 =>
    if d < game_field.length ∧ game_field.getD d 0 = v then
      run_end_aux game_field v (d + 1) fuel
    else d

/-- The final value of `d` in `find_rect`'s inner while loop. -/
def run_end (game_field : List Nat) (v : Nat) (d : Nat) : Nat :=
  run_end_aux game_field v d (game_field.length - d)

/-- The `for c in range(len(game_field) - min_length + 1)` loop of
`find_rect`, starting at column `c` with `fuel` iterations left. -/
def find_rect_aux (game_field : List Nat) (min_length : Nat) :
    Nat → Nat → Option (Nat × Nat)
  | _, 0 => none
  | c, fuel + 1 =>
    let v := game_field.getD c 0
    if 0 < v then
      let d := run_end game_field v c
      if min_length ≤ d - c then some (c, d)
      else find_rect_aux game_field min_length (c + 1) fuel
    else find_rect_aux game_field min_length (c + 1) fuel

/-- `find_rect` (olom.py lines 155-174).  The Python loop runs `c` over
`range(len(game_field) - min_length + 1)`; `length + 1 - min_length` is
that (possibly empty) iteration count in truncated subtraction. -/
def find_rect (game_field : List Nat) (min_length : Nat) : Option (Nat × Nat) :=
  find_rect_aux game_field min_length 0 (game_field.length + 1 - min_length)

/-! ## Clearing rectangles (olom.py lines 289-328) -/

/-- The loop `for j in range(c, d): game_field[j] = 0` of `clear_rects`
(olom.py lines 313-314): entry `i` becomes `0` exactly when `c ≤ i < d`. -/
def zero_range : List Nat → Nat → Nat → List Nat
  | [], _, _ => []
  | v :: vs, c, d =>
    (if c = 0 ∧ 0 < d then 0 else v) :: zero_range vs (c - 1) (d - 1)

/-- Number of strictly positive columns; each cleared rectangle zeroes at
least one of them, so this bounds the iterations of `clear_rects`' loop. -/
def count_pos (game_field : List Nat) : Nat := game_field.countP (fun v => 0 < v)

/-- The `while True` loop of `clear_rects` (olom.py lines 303-320).
Returns the field after all clears together with the list of cleared
rectangles `(c, d, num)` in clearing order, where `num = game_field[c]`
was read before zeroing, exactly as in the source. -/
def clear_loop : Nat → List Nat → List Nat × List (Nat × Nat × Nat)
  | 0, game_field => (game_field, [])
  | fuel + 1, game_field =>
    match find_rect game_field MIN_RECT_WIDTH with
    | none => (game_field, [])
    | some (c, d) =>
      let num := game_field.getD c 0
      let res := clear_loop fuel (zero_range game_field c d)
      (res.1, (c, d, num) :: res.2)

/-- The gravity pass of `clear_rects` (olom.py lines 322-326). -/
def gravity (game_field : List Nat) : List Nat :=
  game_field.map (fun v => if 0 < v then v - 1 else v)

/-- The score added for one cleared rectangle `(c, d, num)`
(olom.py lines 316-318): `num * (d - c - MIN_RECT_WIDTH + 1) ** 3`. -/
def rect_score (r : Nat × Nat × Nat) : Nat :=
  r.2.2 * (r.2.1 - r.1 - MIN_RECT_WIDTH + 1) ^ 3

/-- `clear_rects` (olom.py lines 289-328).  The fuel `count_pos + 1` is
sufficient for the loop to reach its real exit (`find_rect` returning
`None`), see `clear_loop_fuel_enough` below. -/
def clear_rects (state : GameState) : GameState × Option Message :=
  let res := clear_loop (count_pos state.game_field + 1) state.game_field
  let message_text :=
    String.join (res.2.map (fun r => "+" ++ toString (rect_score r) ++ " "))
  let new_field := if res.2.isEmpty then res.1 else gravity res.1
  ({ state with
      game_field := new_field,
      score := state.score + (res.2.map rect_score).sum },
    if message_text = "" then none
    else some { text := message_text.trim, time_left := MESSAGE_SHOW_DURATION })

/-! ## Game-over check (olom.py lines 331-341) -/

/-- `check_game_over`: some column height is at least 11. -/
def check_game_over (game_field : List Nat) : Bool :=
  game_field.any (fun v => 11 ≤ v)

/-! ## Piece commit (olom.py lines 274-286) -/

/-- `fix_piece`'s field update: add block `piece[c - piece_col]` onto every
field column `c` with `piece_col ≤ c < piece_col + len(piece)`. -/
def add_piece : List Nat → Nat → List Nat → List Nat
  | [], _, _ => []
  | v :: vs, 0, [] => v :: vs
  | v :: vs, 0, b :: bs => (v + b) :: add_piece vs 0 bs
  | v :: vs, col + 1, piece => v :: add_piece vs col piece

/-! ## The tick state machine (olom.py lines 344-396)

`update_game` takes the pressed key (`-1` is curses' "no key"), the clock
tick, and — in place of calling the stateful generator closure — the piece
`new_piece` that `piece_generator()` would return on this tick. -/

def update_game (state : GameState) (key : Int) (clock_tick : Nat)
    (new_piece : List Nat) : GameState × Option Message :=
  match state.piece_queue with
  | [] => (state, none)  -- unreachable: the queue always holds 3 slots
  | q0 :: qrest =>
    -- user input for moving or dropping the piece (lines 361-373)
    let state1 :=
      match q0 with
      | some piece =>
        if (key = KEY_LEFT ∨ key = 97) ∧ 0 < state.piece_col then
          { state with piece_col := state.piece_col - 1 }
        else if (key = KEY_RIGHT ∨ key = 100) ∧
            (state.piece_col : Int) < (FIELD_WIDTH : Int) - (piece.length : Int) then
          { state with piece_col := state.piece_col + 1 }
        else if key = KEY_DOWN ∨ key = 115 then
          { state with piece_pos := 0 }
        else state
      | none => state
    -- automatic piece movement based on clock (lines 376-394)
    if clock_tick % 5 = 0 then
      match q0 with
      | none =>
        ({ state1 with
            piece_queue := qrest ++ [some new_piece],
            piece_col := 0,
            piece_pos := state1.piece_drop_pos }, none)
      | some piece =>
        if state1.piece_pos = 0 then
          let state2 : GameState := { state1 with
            game_field := add_piece state1.game_field state1.piece_col piece }
          let res := clear_rects state2
          let state3 : GameState := { res.1 with
            piece_queue := none :: qrest,
            pieces_dropped := res.1.pieces_dropped + 1 }
          let state4 : GameState :=
            if state3.pieces_dropped % 80 = 0 ∧ 5 ≤ state3.piece_drop_pos then
              { state3 with piece_drop_pos := state3.piece_drop_pos - 1 }
            else state3
          (state4, res.2)
        else
          ({ state1 with piece_pos := state1.piece_pos - 1 }, none)
    else (state1, none)

/-! ## Message decay (olom.py lines 399-414) -/

/-- `update_message`: decrement a live message's timer; it becomes `none`
when the timer reaches zero. -/
def update_message (message : Option Message) : Option Message :=
  match message with
  | none => none
  | some m =>
    if 0 < m.time_left then
      let m' : Message := { m with time_left := m.time_left - 1 }
      if m'.time_left = 0 then none else some m'
    else some m

/-! ## Spec-side predicates -/

/-- From the spec's words (C3): `(s, e)` is a maximal run of equal,
strictly-positive values of length at least `m` — all values in `[s, e)`
equal and positive, `e - s ≥ m`, and the run extends neither left nor
right. -/
def is_qual_run (f : List Nat) (m s e : Nat) : Prop :=
  s < e ∧ e ≤ f.length ∧ m ≤ e - s ∧ 0 < f.getD s 0 ∧
  (∀ i, s ≤ i → i < e → f.getD i 0 = f.getD s 0) ∧
  (s = 0 ∨ f.getD (s - 1) 0 ≠ f.getD s 0) ∧
  (e = f.length ∨ f.getD e 0 ≠ f.getD s 0)

/-- The condition on which `find_rect`'s outer loop returns at column `s`:
the value there is positive and the run extending right from `s` has
length at least `m`. -/
def scan_hit (f : List Nat) (m s : Nat) : Prop :=
  0 < f.getD s 0 ∧ m ≤ run_end f (f.getD s 0) s - s

instance (f : List Nat) (m s : Nat) : Decidable (scan_hit f m s) := by
  unfold scan_hit; infer_instance

/-- A column of a recorded cleared rectangle. -/
def covered (rects : List (Nat × Nat × Nat)) (i : Nat) : Prop :=
  ∃ r ∈ rects, r.1 ≤ i ∧ i < r.2.1

instance (rects : List (Nat × Nat × Nat)) (i : Nat) : Decidable (covered rects i) := by
  unfold covered; infer_instance

/-! ## C7: game-over check -/

/-- C7: `check_game_over` returns true iff some column height is at least
11; in particular it is true on `[0,...,0,11]` and false on any field
whose maximum height is 10. -/
theorem check_game_over_spec (game_field : List Nat) :
    (check_game_over game_field = true ↔ ∃ v ∈ game_field, 11 ≤ v) ∧
    check_game_over [0, 0, 0, 0, 0, 0, 0, 0, 0, 11] = true ∧
    ((∀ v ∈ game_field, v ≤ 10) → check_game_over game_field = false) := by
  refine ⟨?_, by decide, ?_⟩
  · simp [check_game_over]
  · intro h
    rw [check_game_over, List.any_eq_false]
    intro v hv
    have := h v hv
    simp only [decide_eq_true_eq]
    omega

theorem check_game_over_spec_witness :
    check_game_over [10, 10, 10, 10, 10, 10, 10, 10, 10, 10] = false :=
  (check_game_over_spec [10, 10, 10, 10, 10, 10, 10, 10, 10, 10]).2.2 (by decide)

/-! ## C9: message decay -/

theorem update_message_iter_none (k : Nat) : update_message^[k] none = none :=
  Function.iterate_fixed rfl k

theorem update_message_iter_lt (text : String) :
    ∀ k n, k < n →
      update_message^[k] (some { text := text, time_left := n }) =
        some { text := text, time_left := n - k } := by
  intro k
  induction k with
  | zero => intro n _; simp
  | succ j ih =>
    intro n h
    rw [Function.iterate_succ_apply]
    have h2 : update_message (some { text := text, time_left := n }) =
        some { text := text, time_left := n - 1 } := by
      show (if 0 < n then
          if n - 1 = 0 then none
          else some ({ text := text, time_left := n - 1 } : Message)
        else some ({ text := text, time_left := n } : Message)) =
        some ({ text := text, time_left := n - 1 } : Message)
      rw [if_pos (show 0 < n by omega), if_neg (show ¬ n - 1 = 0 by omega)]
    rw [h2, ih (n - 1) (by omega)]
    have h3 : n - 1 - j = n - (j + 1) := by omega
    rw [h3]

/-- C9: a message created with `time_left = 15` is still present with the
timer decremented by exactly `k` after `k ≤ 14` decay calls, and is absent
after the 15th call and any call thereafter. -/
theorem update_message_duration (text : String) (k : Nat) :
    (k ≤ 14 →
      update_message^[k] (some { text := text, time_left := 15 }) =
        some { text := text, time_left := 15 - k }) ∧
    (15 ≤ k → update_message^[k] (some { text := text, time_left := 15 }) = none) := by
  constructor
  · intro h
    exact update_message_iter_lt text k 15 (by omega)
  · intro h
    have h15 : update_message^[15] (some { text := text, time_left := 15 }) = none := by
      have h14 := update_message_iter_lt text 14 15 (by omega)
      have he : (15 : Nat) = 14 + 1 := rfl
      rw [he, Function.iterate_succ_apply', h14]
      rfl
    obtain ⟨j, rfl⟩ : ∃ j, k = j + 15 := ⟨k - 15, by omega⟩
    rw [Function.iterate_add_apply, h15, update_message_iter_none]

theorem update_message_duration_witness :
    update_message^[3] (some { text := "x", time_left := 15 }) =
        some { text := "x", time_left := 12 } ∧
    update_message^[20] (some { text := "x", time_left := 15 }) = none :=
  ⟨(update_message_duration "x" 3).1 (by decide),
   (update_message_duration "x" 20).2 (by decide)⟩

/-! ## C2: shape of random pieces -/

/-- C2 counterexample: the random choices `[0, 0, 2, 2]` (four choices in
`[0, PIECE_WIDTH)`) produce the piece `[2, 0, 2]`, which has an element
equal to `0` — the claim that every element is strictly positive fails. -/
theorem gen_piece_random_counterexample :
    gen_piece_random PIECE_WIDTH [0, 0, 2, 2] = [2, 0, 2] ∧
    ¬ ∀ v ∈ gen_piece_random PIECE_WIDTH [0, 0, 2, 2], 0 < v := by decide

/-- C2 (amended): for every sequence of `PIECE_BLOCKS` (4) random column
choices in `[0, PIECE_WIDTH)`, the generated piece has length between 1
and `PIECE_WIDTH` (3), sum of elements equal to `PIECE_BLOCKS` (4), and
strictly positive first and last elements (interior elements may be 0:
only leading and trailing zeros are trimmed). -/
theorem gen_piece_random_shape :
    ∀ a b c d : Fin PIECE_WIDTH,
      1 ≤ (gen_piece_random PIECE_WIDTH [a.val, b.val, c.val, d.val]).length ∧
      (gen_piece_random PIECE_WIDTH [a.val, b.val, c.val, d.val]).length ≤ PIECE_WIDTH ∧
      (gen_piece_random PIECE_WIDTH [a.val, b.val, c.val, d.val]).sum = PIECE_BLOCKS ∧
      0 < (gen_piece_random PIECE_WIDTH [a.val, b.val, c.val, d.val]).headD 0 ∧
      0 < (gen_piece_random PIECE_WIDTH [a.val, b.val, c.val, d.val]).getLastD 0 := by
  decide

/-! ## C3: characterisation of `find_rect` -/

theorem getD_pos_lt (l : List Nat) (i : Nat) (h : 0 < l.getD i 0) : i < l.length := by
  by_contra hc
  rw [List.getD_eq_default _ _ (by omega)] at h
  omega

theorem run_end_aux_ge (f : List Nat) (v : Nat) :
    ∀ fuel d, d ≤ run_end_aux f v d fuel := by
  intro fuel
  induction fuel with
  | zero => intro d; simp [run_end_aux]
  | succ n ih =>
    intro d
    simp only [run_end_aux]
    split
    · exact Nat.le_trans (Nat.le_succ d) (ih (d + 1))
    · exact Nat.le_refl d

theorem run_end_aux_le_length (f : List Nat) (v : Nat) :
    ∀ fuel d, d ≤ f.length → run_end_aux f v d fuel ≤ f.length := by
  intro fuel
  induction fuel with
  | zero => intro d h; simpa [run_end_aux] using h
  | succ n ih =>
    intro d h
    simp only [run_end_aux]
    split
    · next hc => exact ih (d + 1) (by omega)
    · exact h

theorem run_end_aux_mem (f : List Nat) (v : Nat) :
    ∀ fuel d i, d ≤ i → i < run_end_aux f v d fuel → f.getD i 0 = v := by
  intro fuel
  induction fuel with
  | zero =>
    intro d i hdi hi
    simp only [run_end_aux] at hi
    omega
  | succ n ih =>
    intro d i hdi hi
    simp only [run_end_aux] at hi
    by_cases hc : d < f.length ∧ f.getD d 0 = v
    · rw [if_pos hc] at hi
      rcases Nat.eq_or_lt_of_le hdi with he | hlt
      · rw [← he]; exact hc.2
      · exact ih (d + 1) i hlt hi
    · rw [if_neg hc] at hi
      omega

theorem run_end_aux_stop (f : List Nat) (v : Nat) :
    ∀ fuel d, f.length - d ≤ fuel → run_end_aux f v d fuel < f.length →
      f.getD (run_end_aux f v d fuel) 0 ≠ v := by
  intro fuel
  induction fuel with
  | zero =>
    intro d hf hlt
    simp only [run_end_aux] at hlt
    exact absurd hlt (by omega)
  | succ n ih =>
    intro d hf hlt
    simp only [run_end_aux] at hlt ⊢
    by_cases hc : d < f.length ∧ f.getD d 0 = v
    · rw [if_pos hc] at hlt ⊢
      exact ih (d + 1) (by omega) hlt
    · rw [if_neg hc] at hlt ⊢
      intro hv
      exact hc ⟨hlt, hv⟩

theorem run_end_aux_lower (f : List Nat) (v : Nat) :
    ∀ fuel d e, d ≤ e → e ≤ f.length →
      (∀ i, d ≤ i → i < e → f.getD i 0 = v) → f.length - d ≤ fuel →
      e ≤ run_end_aux f v d fuel := by
  intro fuel
  induction fuel with
  | zero =>
    intro d e hde hel _ hf
    simp only [run_end_aux]
    omega
  | succ n ih =>
    intro d e hde hel hall hf
    rcases Nat.eq_or_lt_of_le hde with he | hlt
    · subst he
      exact run_end_aux_ge f v (n + 1) d
    · simp only [run_end_aux]
      rw [if_pos ⟨by omega, hall d (Nat.le_refl d) hlt⟩]
      exact ih (d + 1) e hlt hel (fun i h1 h2 => hall i (by omega) h2) (by omega)

theorem run_end_ge (f : List Nat) (v d : Nat) : d ≤ run_end f v d :=
  run_end_aux_ge f v _ d

theorem run_end_le_length (f : List Nat) (v d : Nat) (h : d ≤ f.length) :
    run_end f v d ≤ f.length :=
  run_end_aux_le_length f v _ d h

theorem run_end_mem (f : List Nat) (v d i : Nat) (h1 : d ≤ i)
    (h2 : i < run_end f v d) : f.getD i 0 = v :=
  run_end_aux_mem f v _ d i h1 h2

theorem run_end_stop (f : List Nat) (v d : Nat) (h : run_end f v d < f.length) :
    f.getD (run_end f v d) 0 ≠ v :=
  run_end_aux_stop f v _ d (Nat.le_refl _) h

theorem run_end_lower (f : List Nat) (v d e : Nat) (hde : d ≤ e) (hel : e ≤ f.length)
    (hall : ∀ i, d ≤ i → i < e → f.getD i 0 = v) : e ≤ run_end f v d :=
  run_end_aux_lower f v _ d e hde hel hall (Nat.le_refl _)

theorem run_end_step (f : List Nat) (v d : Nat) (hd : d < f.length)
    (hv : f.getD d 0 = v) : run_end f v d = run_end f v (d + 1) := by
  have h : f.length - d = (f.length - (d + 1)) + 1 := by omega
  rw [run_end, h]
  simp only [run_end_aux]
  rw [if_pos ⟨hd, hv⟩]
  rfl

theorem find_rect_aux_some (f : List Nat) (m : Nat) :
    ∀ fuel c s e, find_rect_aux f m c fuel = some (s, e) →
      c ≤ s ∧ s < c + fuel ∧ scan_hit f m s ∧ e = run_end f (f.getD s 0) s ∧
        ∀ j, c ≤ j → j < s → ¬ scan_hit f m j := by
  intro fuel
  induction fuel with
  | zero => intro c s e h; simp [find_rect_aux] at h
  | succ n ih =>
    intro c s e h
    simp only [find_rect_aux] at h
    by_cases h1 : 0 < f.getD c 0
    · rw [if_pos h1] at h
      by_cases h2 : m ≤ run_end f (f.getD c 0) c - c
      · rw [if_pos h2] at h
        obtain ⟨rfl, rfl⟩ : c = s ∧ run_end f (f.getD c 0) c = e := by simpa using h
        refine ⟨Nat.le_refl _, by omega, ⟨h1, h2⟩, rfl, ?_⟩
        intro j hj1 hj2
        omega
      · rw [if_neg h2] at h
        obtain ⟨hcs, hlt, hhit, he, hmin⟩ := ih (c + 1) s e h
        refine ⟨by omega, by omega, hhit, he, ?_⟩
        intro j hj1 hj2
        rcases Nat.eq_or_lt_of_le hj1 with hj | hj
        · subst hj
          exact fun hs => h2 hs.2
        · exact hmin j (by omega) hj2
    · rw [if_neg h1] at h
      obtain ⟨hcs, hlt, hhit, he, hmin⟩ := ih (c + 1) s e h
      refine ⟨by omega, by omega, hhit, he, ?_⟩
      intro j hj1 hj2
      rcases Nat.eq_or_lt_of_le hj1 with hj | hj
      · subst hj
        exact fun hs => h1 hs.1
      · exact hmin j (by omega) hj2

theorem find_rect_aux_none (f : List Nat) (m : Nat) :
    ∀ fuel c, find_rect_aux f m c fuel = none →
      ∀ s, c ≤ s → s < c + fuel → ¬ scan_hit f m s := by
  intro fuel
  induction fuel with
  | zero =>
    intro c _ s h1 h2
    exact absurd h2 (by omega)
  | succ n ih =>
    intro c h s h1 h2
    simp only [find_rect_aux] at h
    by_cases hv : 0 < f.getD c 0
    · rw [if_pos hv] at h
      by_cases hm : m ≤ run_end f (f.getD c 0) c - c
      · rw [if_pos hm] at h
        exact absurd h (by simp)
      · rw [if_neg hm] at h
        rcases Nat.eq_or_lt_of_le h1 with hj | hj
        · subst hj
          exact fun hs => hm hs.2
        · exact ih (c + 1) h s hj (by omega)
    · rw [if_neg hv] at h
      rcases Nat.eq_or_lt_of_le h1 with hj | hj
      · subst hj
        exact fun hs => hv hs.1
      · exact ih (c + 1) h s hj (by omega)

theorem scan_hit_lt (f : List Nat) (m s : Nat) (h : scan_hit f m s) : s < f.length :=
  getD_pos_lt f s h.1

theorem scan_hit_window (f : List Nat) (m s : Nat) (_hm : 1 ≤ m) (h : scan_hit f m s) :
    s < f.length + 1 - m := by
  have h1 : s < f.length := scan_hit_lt f m s h
  have h2 : run_end f (f.getD s 0) s ≤ f.length := run_end_le_length f _ s (by omega)
  have h3 : s ≤ run_end f (f.getD s 0) s := run_end_ge f _ s
  have h4 := h.2
  omega

theorem find_rect_some_iff (f : List Nat) (m : Nat) (hm : 1 ≤ m) (s e : Nat) :
    find_rect f m = some (s, e) ↔
      scan_hit f m s ∧ e = run_end f (f.getD s 0) s ∧ ∀ j, j < s → ¬ scan_hit f m j := by
  constructor
  · intro h
    obtain ⟨_, _, hhit, he, hmin⟩ := find_rect_aux_some f m _ 0 s e h
    exact ⟨hhit, he, fun j hj => hmin j (Nat.zero_le j) hj⟩
  · rintro ⟨hhit, he, hmin⟩
    cases hr : find_rect f m with
    | none =>
      have hw : s < 0 + (f.length + 1 - m) := by
        have := scan_hit_window f m s hm hhit
        omega
      exact absurd hhit (find_rect_aux_none f m _ 0 hr s (Nat.zero_le s) hw)
    | some pr =>
      obtain ⟨s1, e1⟩ := pr
      obtain ⟨_, _, hhit1, he1, hmin1⟩ := find_rect_aux_some f m _ 0 s1 e1 hr
      have hs : s1 = s := by
        rcases Nat.lt_trichotomy s1 s with hlt | heq | hgt
        · exact absurd hhit1 (hmin s1 hlt)
        · exact heq
        · exact absurd hhit (hmin1 s (Nat.zero_le s) hgt)
      subst hs
      rw [he, he1]

theorem find_rect_none_iff (f : List Nat) (m : Nat) (hm : 1 ≤ m) :
    find_rect f m = none ↔ ∀ s, ¬ scan_hit f m s := by
  constructor
  · intro h s hs
    have hw : s < 0 + (f.length + 1 - m) := by
      have := scan_hit_window f m s hm hs
      omega
    exact find_rect_aux_none f m _ 0 h s (Nat.zero_le s) hw hs
  · intro h
    cases hr : find_rect f m with
    | none => rfl
    | some pr =>
      obtain ⟨s1, e1⟩ := pr
      obtain ⟨_, _, hhit1, _, _⟩ := find_rect_aux_some f m _ 0 s1 e1 hr
      exact absurd hhit1 (h s1)

theorem is_qual_run_scan_hit (f : List Nat) (m s e : Nat) (h : is_qual_run f m s e) :
    scan_hit f m s ∧ run_end f (f.getD s 0) s = e := by
  obtain ⟨hse, hel, hme, hpos, heq, _, hright⟩ := h
  have h1 : e ≤ run_end f (f.getD s 0) s := run_end_lower f _ s e (by omega) hel heq
  have h2 : run_end f (f.getD s 0) s ≤ e := by
    by_contra hc
    push_neg at hc
    have hmem := run_end_mem f (f.getD s 0) s e (by omega) hc
    have hlen : run_end f (f.getD s 0) s ≤ f.length := run_end_le_length f _ s (by omega)
    rcases hright with h' | h'
    · omega
    · exact h' hmem
  exact ⟨⟨hpos, by omega⟩, by omega⟩

theorem scan_hit_first_is_qual_run (f : List Nat) (m s : Nat) (hm : 1 ≤ m)
    (h : scan_hit f m s) (hmin : ∀ j, j < s → ¬ scan_hit f m j) :
    is_qual_run f m s (run_end f (f.getD s 0) s) := by
  have hs : s < f.length := scan_hit_lt f m s h
  have hge : s ≤ run_end f (f.getD s 0) s := run_end_ge f _ s
  have hlen : run_end f (f.getD s 0) s ≤ f.length := run_end_le_length f _ s (by omega)
  have hm2 := h.2
  refine ⟨by omega, hlen, by omega, h.1, ?_, ?_, ?_⟩
  · intro i h1 h2
    exact run_end_mem f _ s i h1 h2
  · rcases Nat.eq_zero_or_pos s with h0 | h0
    · exact Or.inl h0
    · refine Or.inr ?_
      intro hv
      have hstep : run_end f (f.getD s 0) (s - 1) = run_end f (f.getD s 0) s := by
        have hst := run_end_step f (f.getD s 0) (s - 1) (by omega) hv
        rwa [show s - 1 + 1 = s by omega] at hst
      have hhit : scan_hit f m (s - 1) := by
        refine ⟨?_, ?_⟩
        · rw [hv]
          exact h.1
        · rw [hv, hstep]
          omega
      exact hmin (s - 1) (by omega) hhit
  · rcases Nat.lt_or_ge (run_end f (f.getD s 0) s) f.length with h' | h'
    · exact Or.inr (run_end_stop f _ s h')
    · exact Or.inl (by omega)

/-- C3: for every field and every `min_length ≥ 1` (the scan is applied
only with `MIN_RECT_WIDTH = 4`), `find_rect` returns `some (start, end)`
iff the field contains a maximal run of equal, strictly-positive values of
length at least `min_length` and `(start, end)` is the leftmost such run;
it returns `none` iff no such run exists; in particular it returns
`(1, 5)` on `[0,3,3,3,3,0,0,0,0,0]` with `min_length` 4, and `none` on
`[1,2,1,2,1,2,1,2,1,2]`. -/
theorem find_rect_spec (f : List Nat) (m : Nat) (hm : 1 ≤ m) :
    (∀ s e, find_rect f m = some (s, e) ↔
      (is_qual_run f m s e ∧ ∀ s' e', is_qual_run f m s' e' → s ≤ s')) ∧
    (find_rect f m = none ↔ ∀ s e, ¬ is_qual_run f m s e) ∧
    find_rect [0, 3, 3, 3, 3, 0, 0, 0, 0, 0] 4 = some (1, 5) ∧
    find_rect [1, 2, 1, 2, 1, 2, 1, 2, 1, 2] 4 = none := by
  refine ⟨?_, ?_, by decide, by decide⟩
  · intro s e
    constructor
    · intro h
      obtain ⟨hhit, he, hmin⟩ := (find_rect_some_iff f m hm s e).1 h
      have hq := scan_hit_first_is_qual_run f m s hm hhit hmin
      rw [← he] at hq
      refine ⟨hq, ?_⟩
      intro s' e' hq'
      have hhit' := (is_qual_run_scan_hit f m s' e' hq').1
      by_contra hc
      push_neg at hc
      exact hmin s' hc hhit'
    · rintro ⟨hq, hleft⟩
      obtain ⟨hhit, hre⟩ := is_qual_run_scan_hit f m s e hq
      have hminhit : ∀ j, j < s → ¬ scan_hit f m j := by
        intro j hj hsj
        have hex : ∃ i, scan_hit f m i := ⟨j, hsj⟩
        have hi0 := Nat.find_spec hex
        have hmin0 : ∀ i, i < Nat.find hex → ¬ scan_hit f m i :=
          fun i hi => Nat.find_min hex hi
        have hq0 := scan_hit_first_is_qual_run f m (Nat.find hex) hm hi0 hmin0
        have hle : s ≤ Nat.find hex := hleft _ _ hq0
        have hle2 : Nat.find hex ≤ j := Nat.find_min' hex hsj
        omega
      exact (find_rect_some_iff f m hm s e).2 ⟨hhit, hre.symm, hminhit⟩
  · constructor
    · intro h s e hq
      exact (find_rect_none_iff f m hm).1 h s (is_qual_run_scan_hit f m s e hq).1
    · intro h
      refine (find_rect_none_iff f m hm).2 ?_
      intro s hs
      have hex : ∃ i, scan_hit f m i := ⟨s, hs⟩
      have hi0 := Nat.find_spec hex
      have hmin0 : ∀ i, i < Nat.find hex → ¬ scan_hit f m i :=
        fun i hi => Nat.find_min hex hi
      exact h _ _ (scan_hit_first_is_qual_run f m (Nat.find hex) hm hi0 hmin0)

theorem find_rect_spec_witness :
    find_rect [0, 3, 3, 3, 3, 0, 0, 0, 0, 0] 4 = some (1, 5) ∧
    find_rect [1, 2, 1, 2, 1, 2, 1, 2, 1, 2] 4 = none :=
  ⟨(find_rect_spec [0, 3, 3, 3, 3, 0, 0, 0, 0, 0] 4 (by decide)).2.2.1,
   (find_rect_spec [1, 2, 1, 2, 1, 2, 1, 2, 1, 2] 4 (by decide)).2.2.2⟩

/-! ## Lemmas about `zero_range`, `count_pos` and `clear_loop` -/

theorem zero_range_length : ∀ (f : List Nat) (c d : Nat),
    (zero_range f c d).length = f.length := by
  intro f
  induction f with
  | nil => intro c d; rfl
  | cons v vs ih =>
    intro c d
    simp only [zero_range, List.length_cons, ih]

theorem zero_range_getD : ∀ (f : List Nat) (c d i : Nat),
    (zero_range f c d).getD i 0 =
      if c ≤ i ∧ i < d ∧ i < f.length then 0 else f.getD i 0 := by
  intro f
  induction f with
  | nil =>
    intro c d i
    simp [zero_range]
  | cons v vs ih =>
    intro c d i
    cases i with
    | zero =>
      simp only [zero_range, List.getD_cons_zero, List.length_cons]
      split_ifs with h1 h2 <;> first | rfl | (exfalso; omega)
    | succ j =>
      simp only [zero_range, List.getD_cons_succ, List.length_cons]
      rw [ih]
      split_ifs with h1 h2 <;> first | rfl | (exfalso; omega)

theorem count_pos_zero_range_le : ∀ (f : List Nat) (c d : Nat),
    count_pos (zero_range f c d) ≤ count_pos f := by
  intro f
  induction f with
  | nil => intro c d; simp [zero_range]
  | cons v vs ih =>
    intro c d
    have hre := ih (c - 1) (d - 1)
    simp only [count_pos] at hre ⊢
    simp only [zero_range, List.countP_cons]
    by_cases hc : c = 0 ∧ 0 < d
    · rw [if_pos hc]
      rw [if_neg (by decide : ¬ ((fun v => decide (0 < v)) (0:Nat) = true))]
      omega
    · rw [if_neg hc]
      omega

theorem count_pos_zero_range_lt : ∀ (f : List Nat) (c d : Nat), c < f.length →
    0 < f.getD c 0 → c < d → count_pos (zero_range f c d) < count_pos f := by
  intro f
  induction f with
  | nil =>
    intro c d h
    simp at h
  | cons v vs ih =>
    intro c d hc hv hcd
    cases c with
    | zero =>
      simp only [List.getD_cons_zero] at hv
      have hle := count_pos_zero_range_le vs (0 - 1) (d - 1)
      simp only [count_pos] at hle ⊢
      simp only [zero_range, List.countP_cons]
      rw [if_pos (show True ∧ 0 < d from ⟨trivial, hcd⟩)]
      rw [if_neg (by decide : ¬ ((fun v => decide (0 < v)) (0:Nat) = true))]
      rw [if_pos (show (fun v => decide (0 < v)) v = true by simpa using hv)]
      omega
    | succ c' =>
      simp only [List.length_cons] at hc
      simp only [List.getD_cons_succ] at hv
      have hrec := ih c' (d - 1) (by omega) hv (by omega)
      simp only [count_pos] at hrec ⊢
      simp only [zero_range, List.countP_cons, Nat.add_sub_cancel]
      rw [if_neg (show ¬ (c' + 1 = 0 ∧ 0 < d) by omega)]
      omega

theorem find_rect_main (f : List Nat) (c d : Nat)
    (h : find_rect f MIN_RECT_WIDTH = some (c, d)) :
    0 < f.getD c 0 ∧ c < f.length ∧ MIN_RECT_WIDTH ≤ d - c ∧ c < d ∧ d ≤ f.length ∧
      ∀ i, c ≤ i → i < d → f.getD i 0 = f.getD c 0 := by
  obtain ⟨hhit, he, _⟩ := (find_rect_some_iff f MIN_RECT_WIDTH (by decide) c d).1 h
  have hc : c < f.length := scan_hit_lt f _ c hhit
  have hge : c ≤ run_end f (f.getD c 0) c := run_end_ge f _ c
  have hlen : run_end f (f.getD c 0) c ≤ f.length := run_end_le_length f _ c (by omega)
  have hm4 : MIN_RECT_WIDTH = 4 := rfl
  have hm := hhit.2
  rw [hm4] at hm
  subst he
  refine ⟨hhit.1, hc, by omega, by omega, hlen, ?_⟩
  intro i h1 h2
  exact run_end_mem f _ c i h1 h2

theorem clear_loop_length : ∀ (fuel : Nat) (f : List Nat),
    ((clear_loop fuel f).1).length = f.length := by
  intro fuel
  induction fuel with
  | zero => intro f; rfl
  | succ n ih =>
    intro f
    simp only [clear_loop]
    cases hr : find_rect f MIN_RECT_WIDTH with
    | none => rfl
    | some pr =>
      obtain ⟨c, d⟩ := pr
      simp only
      rw [ih, zero_range_length]

theorem clear_loop_rect_facts : ∀ (fuel : Nat) (f : List Nat) (r : Nat × Nat × Nat),
    r ∈ (clear_loop fuel f).2 →
      MIN_RECT_WIDTH ≤ r.2.1 - r.1 ∧ r.1 < r.2.1 ∧ r.2.1 ≤ f.length := by
  intro fuel
  induction fuel with
  | zero =>
    intro f r h
    simp [clear_loop] at h
  | succ n ih =>
    intro f r h
    simp only [clear_loop] at h
    cases hr : find_rect f MIN_RECT_WIDTH with
    | none =>
      rw [hr] at h
      simp at h
    | some pr =>
      obtain ⟨c, d⟩ := pr
      rw [hr] at h
      simp only [List.mem_cons] at h
      obtain ⟨_, _, hw, hcd, hdlen, _⟩ := find_rect_main f c d hr
      rcases h with h | h
      · subst h
        exact ⟨hw, hcd, hdlen⟩
      · have hrec := ih (zero_range f c d) r h
        rwa [zero_range_length] at hrec

theorem clear_loop_uncovered : ∀ (fuel : Nat) (f : List Nat) (i : Nat),
    ¬ covered (clear_loop fuel f).2 i →
      ((clear_loop fuel f).1).getD i 0 = f.getD i 0 := by
  intro fuel
  induction fuel with
  | zero => intro f i _; rfl
  | succ n ih =>
    intro f i h
    simp only [clear_loop] at h ⊢
    cases hr : find_rect f MIN_RECT_WIDTH with
    | none => rfl
    | some pr =>
      obtain ⟨c, d⟩ := pr
      rw [hr] at h
      simp only
      have hnc : ¬ covered (clear_loop n (zero_range f c d)).2 i := by
        intro hc
        refine h ?_
        obtain ⟨r, hr1, hr2⟩ := hc
        exact ⟨r, List.mem_cons_of_mem _ hr1, hr2⟩
      have hni : ¬ (c ≤ i ∧ i < d) := by
        intro hc
        exact h ⟨(c, d, f.getD c 0), List.mem_cons_self _ _, hc.1, hc.2⟩
      rw [ih (zero_range f c d) i hnc, zero_range_getD]
      rw [if_neg (by omega : ¬ (c ≤ i ∧ i < d ∧ i < f.length))]

theorem clear_loop_covered : ∀ (fuel : Nat) (f : List Nat) (i : Nat),
    covered (clear_loop fuel f).2 i → ((clear_loop fuel f).1).getD i 0 = 0 := by
  intro fuel
  induction fuel with
  | zero =>
    intro f i h
    obtain ⟨r, hr, _⟩ := h
    simp [clear_loop] at hr
  | succ n ih =>
    intro f i h
    simp only [clear_loop] at h ⊢
    cases hr : find_rect f MIN_RECT_WIDTH with
    | none =>
      rw [hr] at h
      obtain ⟨r, hr1, _⟩ := h
      simp at hr1
    | some pr =>
      obtain ⟨c, d⟩ := pr
      rw [hr] at h
      simp only
      by_cases hcov : covered (clear_loop n (zero_range f c d)).2 i
      · exact ih (zero_range f c d) i hcov
      · obtain ⟨r, hr1, hr2, hr3⟩ := h
        simp only [List.mem_cons] at hr1
        rcases hr1 with hr1 | hr1
        · subst hr1
          obtain ⟨_, _, _, _, hdlen, _⟩ := find_rect_main f c d hr
          rw [clear_loop_uncovered n (zero_range f c d) i hcov, zero_range_getD]
          rw [if_pos ⟨hr2, by simp at hr3 ⊢; omega, by simp at hr3; omega⟩]
        · exact absurd ⟨r, hr1, hr2, hr3⟩ hcov

theorem clear_loop_fuel_enough : ∀ (fuel : Nat) (f : List Nat), count_pos f < fuel →
    find_rect (clear_loop fuel f).1 MIN_RECT_WIDTH = none := by
  intro fuel
  induction fuel with
  | zero =>
    intro f h
    exact absurd h (by omega)
  | succ n ih =>
    intro f h
    simp only [clear_loop]
    cases hr : find_rect f MIN_RECT_WIDTH with
    | none => exact hr
    | some pr =>
      obtain ⟨c, d⟩ := pr
      simp only
      obtain ⟨hpos, hclen, _, hcd, _, _⟩ := find_rect_main f c d hr
      refine ih (zero_range f c d) ?_
      have := count_pos_zero_range_lt f c d hclen hpos hcd
      omega

theorem gravity_length (f : List Nat) : (gravity f).length = f.length := by
  simp [gravity]

theorem gravity_getD : ∀ (f : List Nat) (i : Nat), i < f.length →
    (gravity f).getD i 0 =
      if 0 < f.getD i 0 then f.getD i 0 - 1 else f.getD i 0 := by
  intro f
  induction f with
  | nil =>
    intro i h
    simp at h
  | cons v vs ih =>
    intro i h
    cases i with
    | zero => simp [gravity]
    | succ j =>
      simp only [gravity, List.map_cons, List.getD_cons_succ]
      simp only [List.length_cons] at h
      have := ih j (by omega)
      simpa [gravity] using this

/-! ## C4 and C5: clearing, gravity and scoring -/

/-- C4: whenever `clear_rects` clears at least one run (the recorded list
of cleared rectangles is nonempty), afterwards every column belonging to a
cleared run holds exactly 0, and every other column that was strictly
positive before has lost exactly 1 unit of height — the gravity decrement
is applied exactly once per call, however many runs were cleared. -/
theorem clear_rects_gravity (state : GameState)
    (h : (clear_loop (count_pos state.game_field + 1) state.game_field).2 ≠ []) :
    (∀ i, covered (clear_loop (count_pos state.game_field + 1) state.game_field).2 i →
      (clear_rects state).1.game_field.getD i 0 = 0) ∧
    (∀ i, i < state.game_field.length →
      ¬ covered (clear_loop (count_pos state.game_field + 1) state.game_field).2 i →
      0 < state.game_field.getD i 0 →
      (clear_rects state).1.game_field.getD i 0 = state.game_field.getD i 0 - 1) := by
  have hfield : (clear_rects state).1.game_field =
      gravity (clear_loop (count_pos state.game_field + 1) state.game_field).1 := by
    simp only [clear_rects]
    rw [if_neg (by simpa [List.isEmpty_iff] using h)]
  constructor
  · intro i hcov
    have hilen : i < state.game_field.length := by
      obtain ⟨r, hr1, _, hr3⟩ := hcov
      have := (clear_loop_rect_facts _ _ r hr1).2.2
      omega
    have h0 := clear_loop_covered (count_pos state.game_field + 1) state.game_field i hcov
    rw [hfield, gravity_getD _ i (by rw [clear_loop_length]; exact hilen), h0]
    simp
  · intro i hilen hcov hpos
    have h0 := clear_loop_uncovered (count_pos state.game_field + 1) state.game_field i hcov
    rw [hfield, gravity_getD _ i (by rw [clear_loop_length]; exact hilen), h0,
      if_pos hpos]

theorem clear_rects_gravity_witness :
    (clear_rects { game_field := [2, 2, 2, 2, 2, 0, 0, 0, 0, 1] }).1.game_field.getD 0 0
        = 0 ∧
    (clear_rects { game_field := [2, 2, 2, 2, 2, 0, 0, 0, 0, 1] }).1.game_field.getD 9 0
        = ({ game_field := [2, 2, 2, 2, 2, 0, 0, 0, 0, 1] } : GameState).game_field.getD 9 0
          - 1 :=
  ⟨(clear_rects_gravity { game_field := [2, 2, 2, 2, 2, 0, 0, 0, 0, 1] } (by decide)).1
      0 (by decide),
   (clear_rects_gravity { game_field := [2, 2, 2, 2, 2, 0, 0, 0, 0, 1] } (by decide)).2
      9 (by decide) (by decide) (by decide)⟩

/-- C5: the total score increase of one `clear_rects` call is the sum over
the cleared runs `(c, d, num)` of `num * ((d - c) - MIN_RECT_WIDTH + 1)^3`
(every cleared run has width `d - c ≥ MIN_RECT_WIDTH`); in particular
clearing a run of value 2 and width 5 adds `2 * (5 - 4 + 1)^3 = 16`. -/
theorem clear_rects_score (state : GameState) :
    (clear_rects state).1.score =
      state.score +
        ((clear_loop (count_pos state.game_field + 1) state.game_field).2.map
          (fun r => r.2.2 * (r.2.1 - r.1 - MIN_RECT_WIDTH + 1) ^ 3)).sum ∧
    (∀ r ∈ (clear_loop (count_pos state.game_field + 1) state.game_field).2,
      MIN_RECT_WIDTH ≤ r.2.1 - r.1) ∧
    (clear_rects { game_field := [2, 2, 2, 2, 2, 0, 0, 0, 0, 0] }).1.score = 16 := by
  refine ⟨rfl, ?_, by decide⟩
  intro r hr
  exact (clear_loop_rect_facts _ _ r hr).1

theorem clear_rects_score_witness :
    MIN_RECT_WIDTH ≤ ((0, 5, 2) : Nat × Nat × Nat).2.1 - ((0, 5, 2) : Nat × Nat × Nat).1 :=
  (clear_rects_score { game_field := [2, 2, 2, 2, 2, 0, 0, 0, 0, 0] }).2.1
    (0, 5, 2) (by decide)

/-! ## C6, C10 and C1: the tick state machine -/

/-- C6: a tick whose counter is not a multiple of 5, with no key pressed
(curses returns `-1`), changes nothing: the state (field, queue, piece
position and column, score) is returned unmodified and no message is
produced. -/
theorem update_game_idle (state : GameState) (clock_tick : Nat) (new_piece : List Nat)
    (hq : state.piece_queue ≠ []) (ht : clock_tick % 5 ≠ 0) :
    update_game state (-1) clock_tick new_piece = (state, none) := by
  rcases hql : state.piece_queue with _ | ⟨q0, qrest⟩
  · exact absurd hql hq
  · rcases q0 with _ | piece
    · simp only [update_game, hql]
      rw [if_neg ht]
    · simp only [update_game, hql]
      rw [if_neg (show ¬ (((-1 : Int) = KEY_LEFT ∨ (-1 : Int) = 97) ∧ 0 < state.piece_col)
            from fun hc => absurd hc.1 (by decide)),
        if_neg (show ¬ (((-1 : Int) = KEY_RIGHT ∨ (-1 : Int) = 100) ∧
              (state.piece_col : Int) < (FIELD_WIDTH : Int) - (piece.length : Int))
            from fun hc => absurd hc.1 (by decide)),
        if_neg (show ¬ ((-1 : Int) = KEY_DOWN ∨ (-1 : Int) = 115) by decide),
        if_neg ht]

theorem update_game_idle_witness :
    update_game { piece_queue := [some [1, 2], none, none] } (-1) 3 [1] =
      ({ piece_queue := [some [1, 2], none, none] }, none) :=
  update_game_idle { piece_queue := [some [1, 2], none, none] } 3 [1]
    (by decide) (by decide)

/-- C10: for every key, a tick whose counter is not a multiple of 5 leaves
`game_field`, `piece_queue`, `score`, `pieces_dropped` and
`piece_drop_pos` unchanged and returns no message — only `piece_col` and
`piece_pos` can change on a non-gated tick. -/
theorem update_game_ungated (state : GameState) (key : Int) (clock_tick : Nat)
    (new_piece : List Nat) (hq : state.piece_queue ≠ []) (ht : clock_tick % 5 ≠ 0) :
    (update_game state key clock_tick new_piece).1.game_field = state.game_field ∧
    (update_game state key clock_tick new_piece).1.piece_queue = state.piece_queue ∧
    (update_game state key clock_tick new_piece).1.score = state.score ∧
    (update_game state key clock_tick new_piece).1.pieces_dropped =
      state.pieces_dropped ∧
    (update_game state key clock_tick new_piece).1.piece_drop_pos =
      state.piece_drop_pos ∧
    (update_game state key clock_tick new_piece).2 = none := by
  rcases hql : state.piece_queue with _ | ⟨q0, qrest⟩
  · exact absurd hql hq
  · rcases q0 with _ | piece
    · simp only [update_game, hql]
      rw [if_neg ht]
      exact ⟨rfl, hql, rfl, rfl, rfl, rfl⟩
    · simp only [update_game, hql]
      rw [if_neg ht]
      split_ifs <;>
        first
          | exact ⟨rfl, rfl, rfl, rfl, rfl, rfl⟩
          | exact ⟨rfl, hql, rfl, rfl, rfl, rfl⟩

theorem update_game_ungated_witness :
    (update_game { piece_queue := [some [1, 2], none, none] } 97 3 [1]).1.score =
      ({ piece_queue := [some [1, 2], none, none] } : GameState).score ∧
    (update_game { piece_queue := [some [1, 2], none, none] } 97 3 [1]).2 = none :=
  ⟨(update_game_ungated { piece_queue := [some [1, 2], none, none] } 97 3 [1]
      (by decide) (by decide)).2.2.1,
   (update_game_ungated { piece_queue := [some [1, 2], none, none] } 97 3 [1]
      (by decide) (by decide)).2.2.2.2.2⟩

/-- C1 counterexample: in the reachable state with `piece_drop_pos = 5`
and `pieces_dropped = 399`, committing the 400th piece decrements
`piece_drop_pos` to 4 — strictly below the floor of 5 the claim asserts
(the code decrements whenever the current value is at least 5). -/
theorem update_game_drop_pos_counterexample :
    (update_game
      { game_field := [0, 0, 0, 0, 0, 0, 0, 0, 0, 0],
        piece_queue := [some [1], none, none], piece_col := 0, piece_pos := 0,
        score := 0, piece_drop_pos := 5, pieces_dropped := 399 }
      (-1) 5 [1]).1.piece_drop_pos = 4 ∧
    ¬ 5 ≤ (update_game
      { game_field := [0, 0, 0, 0, 0, 0, 0, 0, 0, 0],
        piece_queue := [some [1], none, none], piece_col := 0, piece_pos := 0,
        score := 0, piece_drop_pos := 5, pieces_dropped := 399 }
      (-1) 5 [1]).1.piece_drop_pos := by decide

/-- C1 (amended): a call to `update_game` decrements `piece_drop_pos` by
exactly 1 when (and only when) it commits a piece — incrementing
`pieces_dropped` — to a multiple of 80 while `piece_drop_pos` is still at
least 5; in every other case `piece_drop_pos` is unchanged.  Hence it
never goes below the floor of 4 (not 5). -/
theorem update_game_drop_pos_floor (state : GameState) (key : Int) (clock_tick : Nat)
    (new_piece : List Nat) :
    (((update_game state key clock_tick new_piece).1.pieces_dropped =
          state.pieces_dropped + 1 ∧
        (update_game state key clock_tick new_piece).1.pieces_dropped % 80 = 0 ∧
        5 ≤ state.piece_drop_pos) →
      (update_game state key clock_tick new_piece).1.piece_drop_pos =
        state.piece_drop_pos - 1) ∧
    (¬ ((update_game state key clock_tick new_piece).1.pieces_dropped =
          state.pieces_dropped + 1 ∧
        (update_game state key clock_tick new_piece).1.pieces_dropped % 80 = 0 ∧
        5 ≤ state.piece_drop_pos) →
      (update_game state key clock_tick new_piece).1.piece_drop_pos =
        state.piece_drop_pos) ∧
    (4 ≤ state.piece_drop_pos →
      4 ≤ (update_game state key clock_tick new_piece).1.piece_drop_pos) := by
  have hmain :
      ((update_game state key clock_tick new_piece).1.pieces_dropped =
          state.pieces_dropped ∧
        (update_game state key clock_tick new_piece).1.piece_drop_pos =
          state.piece_drop_pos) ∨
      ((update_game state key clock_tick new_piece).1.pieces_dropped =
          state.pieces_dropped + 1 ∧
        (((state.pieces_dropped + 1) % 80 = 0 ∧ 5 ≤ state.piece_drop_pos ∧
            (update_game state key clock_tick new_piece).1.piece_drop_pos =
              state.piece_drop_pos - 1) ∨
          (¬ ((state.pieces_dropped + 1) % 80 = 0 ∧ 5 ≤ state.piece_drop_pos) ∧
            (update_game state key clock_tick new_piece).1.piece_drop_pos =
              state.piece_drop_pos))) := by
    rcases hql : state.piece_queue with _ | ⟨q0, qrest⟩
    · exact Or.inl ⟨by simp only [update_game, hql], by simp only [update_game, hql]⟩
    · rcases q0 with _ | piece
      · simp only [update_game, hql]
        split_ifs <;> exact Or.inl ⟨rfl, rfl⟩
      · simp only [update_game, hql]
        split_ifs <;>
          first
            | exact Or.inl ⟨rfl, rfl⟩
            | (rename_i hcond; exact Or.inr ⟨rfl, Or.inl ⟨hcond.1, hcond.2, rfl⟩⟩)
            | (rename_i hcond; exact Or.inr ⟨rfl, Or.inr ⟨hcond, rfl⟩⟩)
  refine ⟨?_, ?_, ?_⟩
  · rintro ⟨ht1, ht2, ht3⟩
    rcases hmain with ⟨ha, _⟩ | ⟨ha, ⟨_, _, hx⟩ | ⟨hnp, _⟩⟩
    · omega
    · exact hx
    · rw [ha] at ht2
      exact absurd ⟨ht2, ht3⟩ hnp
  · intro hnt
    rcases hmain with ⟨_, hx⟩ | ⟨ha, ⟨hp, h5, _⟩ | ⟨_, hx⟩⟩
    · exact hx
    · exact absurd ⟨ha, by rw [ha]; exact hp, h5⟩ hnt
    · exact hx
  · intro h4
    rcases hmain with ⟨_, hx⟩ | ⟨_, ⟨_, h5, hx⟩ | ⟨_, hx⟩⟩ <;> omega

theorem update_game_drop_pos_floor_witness :
    (update_game
      { game_field := [0, 0, 0, 0, 0, 0, 0, 0, 0, 0],
        piece_queue := [some [1], none, none], piece_col := 0, piece_pos := 0,
        score := 0, piece_drop_pos := 6, pieces_dropped := 159 }
      (-1) 5 [1]).1.piece_drop_pos = 5 ∧
    4 ≤ (update_game
      { game_field := [0, 0, 0, 0, 0, 0, 0, 0, 0, 0],
        piece_queue := [some [1], none, none], piece_col := 0, piece_pos := 0,
        score := 0, piece_drop_pos := 4, pieces_dropped := 479 }
      (-1) 5 [1]).1.piece_drop_pos :=
  ⟨(update_game_drop_pos_floor
      { game_field := [0, 0, 0, 0, 0, 0, 0, 0, 0, 0],
        piece_queue := [some [1], none, none], piece_col := 0, piece_pos := 0,
        score := 0, piece_drop_pos := 6, pieces_dropped := 159 }
      (-1) 5 [1]).1 (by decide),
   (update_game_drop_pos_floor
      { game_field := [0, 0, 0, 0, 0, 0, 0, 0, 0, 0],
        piece_queue := [some [1], none, none], piece_col := 0, piece_pos := 0,
        score := 0, piece_drop_pos := 4, pieces_dropped := 479 }
      (-1) 5 [1]).2.2 (by decide)⟩

/-! ## C8: pattern parsing preserves digits -/

theorem split_on_comma_ne_nil : ∀ l : List Char, split_on_comma l ≠ [] := by
  intro l
  induction l with
  | nil => simp [split_on_comma]
  | cons c cs ih =>
    simp only [split_on_comma]
    split_ifs with h
    · simp
    · cases hs : split_on_comma cs <;> simp

theorem join_comma_split : ∀ l : List Char, join_comma (split_on_comma l) = l := by
  intro l
  induction l with
  | nil => rfl
  | cons c cs ih =>
    simp only [split_on_comma]
    split_ifs with h
    · subst h
      cases hs : split_on_comma cs with
      | nil => exact absurd hs (split_on_comma_ne_nil cs)
      | cons g gs =>
        rw [hs] at ih
        simp only [join_comma, List.nil_append]
        rw [ih]
    · cases hs : split_on_comma cs with
      | nil => exact absurd hs (split_on_comma_ne_nil cs)
      | cons g gs =>
        rw [hs] at ih
        cases gs with
        | nil =>
          simp only [join_comma] at ih ⊢
          rw [ih]
        | cons g2 gs2 =>
          simp only [join_comma, List.cons_append] at ih ⊢
          rw [ih]

theorem split_on_comma_chars : ∀ (l : List Char) (g : List Char),
    g ∈ split_on_comma l → ∀ c ∈ g, c ∈ l ∧ c ≠ ',' := by
  intro l
  induction l with
  | nil =>
    intro g hg c hc
    simp only [split_on_comma, List.mem_singleton] at hg
    subst hg
    simp at hc
  | cons a as ih =>
    intro g hg c hc
    simp only [split_on_comma] at hg
    split_ifs at hg with h
    · simp only [List.mem_cons] at hg
      rcases hg with hg | hg
      · subst hg
        simp at hc
      · obtain ⟨h1, h2⟩ := ih g hg c hc
        exact ⟨List.mem_cons_of_mem a h1, h2⟩
    · cases hs : split_on_comma as with
      | nil => exact absurd hs (split_on_comma_ne_nil as)
      | cons g0 gs =>
        rw [hs] at hg
        simp only [List.mem_cons] at hg
        rcases hg with hg | hg
        · subst hg
          simp only [List.mem_cons] at hc
          rcases hc with hc | hc
          · subst hc
            exact ⟨List.mem_cons_self _ _, h⟩
          · obtain ⟨h1, h2⟩ :=
              ih g0 (by rw [hs]; exact List.mem_cons_self g0 gs) c hc
            exact ⟨List.mem_cons_of_mem a h1, h2⟩
        · obtain ⟨h1, h2⟩ :=
            ih g (by rw [hs]; exact List.mem_cons_of_mem g0 hg) c hc
          exact ⟨List.mem_cons_of_mem a h1, h2⟩

theorem digit_char_digit_val : ∀ c ∈ DIGIT_CHARS, digit_char (digit_val c) = c := by
  decide

/-- C8: for every pattern accepted by `scan_piece_pattern`, the parsed
pieces are exactly the per-digit values of the comma-separated groups
(digit identity is preserved per column), and re-serializing each piece as
its digit string and joining the groups with commas round-trips to the
original pattern. -/
theorem scan_piece_pattern_roundtrip (pattern : List Char)
    (pieces : List (List Nat)) (h : scan_piece_pattern pattern = some pieces) :
    pieces = (split_on_comma pattern).map (fun s => s.map digit_val) ∧
    join_comma (pieces.map (fun p => p.map digit_char)) = pattern := by
  have hform : pattern ≠ [] ∧ ∀ c ∈ pattern, c ∈ DIGIT_CHARS ∨ c = ',' := by
    by_contra hc
    rw [scan_piece_pattern, if_neg hc] at h
    exact Option.noConfusion h
  have hp : pieces = (split_on_comma pattern).map (fun s => s.map digit_val) := by
    rw [scan_piece_pattern, if_pos hform] at h
    dsimp only at h
    split_ifs at h with h2
    exact (Option.some.inj h).symm
  refine ⟨hp, ?_⟩
  rw [hp, List.map_map]
  have hid : (split_on_comma pattern).map
      ((fun p => p.map digit_char) ∘ (fun s => s.map digit_val)) =
      (split_on_comma pattern).map id := by
    apply List.map_congr_left
    intro g hg
    simp only [Function.comp_apply, List.map_map, id_eq]
    have hchars : ∀ c ∈ g, (digit_char ∘ digit_val) c = c := by
      intro c hc
      obtain ⟨h1, h2⟩ := split_on_comma_chars pattern g hg c hc
      rcases hform.2 c h1 with hd | hd
      · exact digit_char_digit_val c hd
      · exact absurd hd h2
    rw [List.map_congr_left hchars]
    simp
  rw [hid, List.map_id, join_comma_split]

theorem scan_piece_pattern_roundtrip_witness :
    ([[2, 0, 2], [0, 2, 2]] : List (List Nat)) =
      (split_on_comma ['2', '0', '2', ',', '0', '2', '2']).map
        (fun s => s.map digit_val) ∧
    join_comma (([[2, 0, 2], [0, 2, 2]] : List (List Nat)).map
        (fun p => p.map digit_char)) = ['2', '0', '2', ',', '0', '2', '2'] :=
  scan_piece_pattern_roundtrip ['2', '0', '2', ',', '0', '2', '2']
    [[2, 0, 2], [0, 2, 2]] (by decide)
